import Mathlib

/-!
Verification of the memoizing `Cacher` wrapper (src/closures.rs) and of the
concurrency examples (src/concurrency.rs) of the rust_book repository.

Pure code is embedded as Lean functions; the thread / channel / mutex
examples are embedded as small-step interleaving semantics whose primitive
behaviour (spawn/join, mpsc channel, mutex) is modelled from the
specification, since those primitives live in Rust's standard library and
not in this repository's sources.
-/

namespace RustBook

/-! ## Cacher (src/closures.rs, lines 9-44)

The source stores a calculation `T : Fn(u32) -> u32` together with an
`Option<u32>` slot.  `u32` values are embedded as `Nat`: `Cacher` itself
performs no arithmetic on them, so no wrap-around can arise inside the
embedded code. -/

/-- Embedding of `struct Cacher` (src/closures.rs lines 9-15): a calculation
together with an optional cached result. -/
structure Cacher where
  calculation : Nat → Nat
  value : Option Nat

/-- Embedding of `Cacher::new` (src/closures.rs lines 24-29): store the
calculation with an initial slot of `None`. -/
def Cacher.new (calculation : Nat → Nat) : Cacher :=
  { calculation := calculation, value := none }

/-- Embedding of `Cacher::value` (src/closures.rs lines 34-43).  The source
method is called `value`, which Lean reserves for the field projection, so
the method is named `value'` here.  It takes `&mut self`, embedded as
returning the result together with the updated cacher. -/
def Cacher.value' (c : Cacher) (arg : Nat) : Nat × Cacher :=
  match c.value with
  | some v => (v, c)
  | none =>
      let v := c.calculation arg
      (v, { c with value := some v })

/-- Instrumented copy of `Cacher::value`, identical branch for branch, that
additionally reports how many times the wrapped calculation was invoked
during the call (0 or 1).  This is the call counter the specification's
testable property asks for. -/
def Cacher.valueCounted (c : Cacher) (arg : Nat) : Nat × Cacher × Nat :=
  match c.value with
  | some v => (v, c, 0)
  | none =>
      let v := c.calculation arg
      (v, { c with value := some v }, 1)

/-- Per-call invocation counts of the wrapped calculation over a finite
sequence of `value` calls on one cacher instance. -/
def Cacher.valueCalls (c : Cacher) : List Nat → List Nat
  | [] => []
  | a :: as =>
      let r := c.valueCounted a
      r.2.2 :: r.2.1.valueCalls as

/-- Sanity: the instrumented copy computes exactly what `value'` computes. -/
theorem Cacher.valueCounted_fst_snd (c : Cacher) (arg : Nat) :
    (c.valueCounted arg).1 = (c.value' arg).1 ∧
      (c.valueCounted arg).2.1 = (c.value' arg).2 := by
  cases h : c.value <;> simp [Cacher.valueCounted, Cacher.value', h]

/-- Once the slot is set, the instrumented call leaves the cacher unchanged
and performs no invocation, over any remaining sequence of calls. -/
theorem Cacher.valueCalls_of_some (c : Cacher) (v : Nat) (h : c.value = some v) :
    ∀ args : List Nat, c.valueCalls args = List.replicate args.length 0 := by
  intro args
  induction args with
  | nil => simp [Cacher.valueCalls]
  | cons a as ih =>
      simp only [Cacher.valueCalls, Cacher.valueCounted, h, List.length_cons,
        List.replicate_succ, List.cons.injEq]
      exact ⟨trivial, ih⟩

/-- C4: on a fresh cacher over `f`, calling `value a` and then `value b`
with `a ≠ b` returns `f a` both times: the second call ignores its argument
and returns the stored first result. -/
theorem cacher_second_call_ignores_arg (f : Nat → Nat) (a b : Nat) (_hab : a ≠ b) :
    ((Cacher.new f).value' a).1 = f a ∧
      ((((Cacher.new f).value' a).2).value' b).1 = f a := by
  constructor
  · rfl
  · simp [Cacher.new, Cacher.value']

/-- Witness for C4 at `f n = n + 1`, `a = 1`, `b = 2`. -/
theorem cacher_second_call_ignores_arg_witness :
    ((Cacher.new (fun n => n + 1)).value' 1).1 = 2 ∧
      ((((Cacher.new (fun n => n + 1)).value' 1).2).value' 2).1 = 2 :=
  cacher_second_call_ignores_arg (fun n => n + 1) 1 2 (by decide)

/-- C5: over any finite sequence of `value` calls on a fresh cacher, the
wrapped function is invoked exactly once on the first call and never again
(so at most once in total). -/
theorem cacher_invokes_at_most_once (f : Nat → Nat) (args : List Nat) :
    (Cacher.new f).valueCalls args =
      match args with
      | [] => []
      | _ :: as => 1 :: List.replicate as.length 0 := by
  cases args with
  | nil => rfl
  | cons a as =>
      simp only [Cacher.valueCalls, Cacher.valueCounted, Cacher.new,
        List.cons.injEq]
      exact ⟨trivial, Cacher.valueCalls_of_some _ (f a) rfl as⟩

/-- C6: once the cached slot holds a value, no call to `value` ever changes
it, regardless of the argument. -/
theorem cacher_slot_never_overwritten (c : Cacher) (arg v : Nat)
    (h : c.value = some v) : ((c.value' arg).2).value = some v := by
  simp [Cacher.value', h]

/-- Witness for C6 at a cacher whose slot already holds 7. -/
theorem cacher_slot_never_overwritten_witness :
    (((Cacher.mk (fun n => n) (some 7)).value' 3).2).value = some 7 :=
  cacher_slot_never_overwritten (Cacher.mk (fun n => n) (some 7)) 3 7 rfl

/-- C10: `Cacher::value` can only change the `value` slot: the wrapped
calculation is unchanged by every call, and when the slot is already set the
whole cacher is left unchanged. -/
theorem cacher_value_frame (c : Cacher) (arg : Nat) :
    ((c.value' arg).2).calculation = c.calculation ∧
      ∀ v, c.value = some v → (c.value' arg).2 = c := by
  refine ⟨?_, ?_⟩
  · cases h : c.value <;> simp [Cacher.value', h]
  · intro v h
    simp [Cacher.value', h]

/-- Witness for C10: with the slot already set to 5 the whole state is
unchanged by a call. -/
theorem cacher_value_frame_witness :
    ((Cacher.mk (fun n => 2 * n) (some 5)).value' 9).2 =
      Cacher.mk (fun n => 2 * n) (some 5) :=
  (cacher_value_frame (Cacher.mk (fun n => 2 * n) (some 5)) 9).2 5 rfl

/-! ## Cacher with a fallible calculation

The source calculation `T : Fn(u32) -> u32` cannot fail; the specification
(§4.1, §7 CacheFunctionFailure) describes what happens when it can.  In the
source, the calculation is invoked (line 38) before the slot is written
(line 39), so a failure at line 38 propagates with the slot still unset. -/

/-- Modelled from the spec: a cacher over a calculation that may fail
(spec §4.1 "Failure" and §7 "CacheFunctionFailure"); the source has no
fallible calculation, so the failure type `E` is taken from the spec's
words.  The structure mirrors `struct Cacher`. -/
structure CacherE (E : Type) where
  calculation : Nat → Except E Nat
  value : Option Nat

/-- Modelled from the spec, following the source order of `Cacher::value`
(call at line 38 strictly before the store at line 39): a failing
calculation propagates its error and leaves the cacher unchanged. -/
def CacherE.value' {E : Type} (c : CacherE E) (arg : Nat) :
    Except E Nat × CacherE E :=
  match c.value with
  | some v => (.ok v, c)
  | none =>
      match c.calculation arg with
      | .error e => (.error e, c)
      | .ok v => (.ok v, { c with value := some v })

/-- C9: if the calculation fails on the first (computing) call, the failure
propagates to the caller and the slot stays unset, so a later call with an
argument on which the calculation succeeds invokes it again and only then
stores the result. -/
theorem cacherE_failure_leaves_slot_unset {E : Type} (c : CacherE E)
    (a : Nat) (e : E) (hnone : c.value = none)
    (herr : c.calculation a = .error e) :
    c.value' a = (.error e, c) ∧
      ∀ b w, c.calculation b = .ok w →
        c.value' b = (.ok w, { c with value := some w }) := by
  constructor
  · simp [CacherE.value', hnone, herr]
  · intro b w hok
    simp [CacherE.value', hnone, hok]

/-- Witness for C9: a calculation failing at 0 and succeeding elsewhere. -/
theorem cacherE_failure_leaves_slot_unset_witness :
    (CacherE.mk (fun n => if n = 0 then .error "boom" else .ok (n + 1))
        none).value' 0 =
      (Except.error "boom",
        CacherE.mk (fun n => if n = 0 then .error "boom" else .ok (n + 1))
          none) ∧
      ∀ b w,
        (if b = 0 then (.error "boom" : Except String Nat) else .ok (b + 1)) =
          .ok w →
        (CacherE.mk (fun n => if n = 0 then .error "boom" else .ok (n + 1))
            none).value' b =
          (.ok w,
            CacherE.mk (fun n => if n = 0 then .error "boom" else .ok (n + 1))
              (some w)) :=
  cacherE_failure_leaves_slot_unset
    (CacherE.mk (fun n => if n = 0 then .error "boom" else .ok (n + 1)) none)
    0 "boom" rfl rfl

/-! ## Single-producer streaming channel
(`message_passing_example_two`, src/concurrency.rs lines 91-118)

The mpsc channel itself lives in Rust's standard library, so its behaviour
is modelled from the spec (§3 Channel: unbounded FIFO, per-sender order,
closed once every sender is dropped).  The state records the producer
thread's remaining values (sent in order, as the source's `for val in vals`
does), whether `tx` is still alive (it is dropped when the producer's
closure returns), the channel's FIFO buffer, and the values the consumer's
`for received in rx` iteration has yielded so far.  The sleep between sends
only paces the demo and adds no transitions. -/

/-- Interleaving state of `message_passing_example_two` over the channel
model taken from the spec. -/
structure ChanState (α : Type) where
  toSend : List α
  senderAlive : Bool
  queue : List α
  received : List α

/-- Modelled from the spec: one scheduler step of producer or consumer.
`send` appends to the FIFO buffer (spec §3: order-preserving queue),
`dropSender` drops `tx` once the producer's loop is done, and `recvNext`
lets the consumer's iteration yield the value at the head of the buffer. -/
inductive ChanStep {α : Type} : ChanState α → ChanState α → Prop
  | send (s : ChanState α) (v : α) (rest : List α) :
      s.toSend = v :: rest → s.senderAlive = true →
      ChanStep s ⟨rest, true, s.queue ++ [v], s.received⟩
  | dropSender (s : ChanState α) :
      s.toSend = [] → s.senderAlive = true →
      ChanStep s ⟨[], false, s.queue, s.received⟩
  | recvNext (s : ChanState α) (v : α) (rest : List α) :
      s.queue = v :: rest →
      ChanStep s ⟨s.toSend, s.senderAlive, rest, s.received ++ [v]⟩

/-- Initial state: the producer still has every value to send, `tx` is
alive, the channel is empty, nothing received. -/
def ChanState.init {α : Type} (vals : List α) : ChanState α :=
  ⟨vals, true, [], []⟩

/-- Reachability under any interleaving of the producer and the consumer. -/
def ChanReach {α : Type} : ChanState α → ChanState α → Prop :=
  Relation.ReflTransGen ChanStep

/-- Invariant: the values already received, the values buffered, and the
values not yet sent, in that order, always make up the original sequence;
once the sender is dropped nothing remains to send. -/
def ChanInv {α : Type} (vals : List α) (s : ChanState α) : Prop :=
  s.received ++ s.queue ++ s.toSend = vals ∧
    (s.senderAlive = false → s.toSend = [])

theorem chanInv_step {α : Type} {vals : List α} {s t : ChanState α}
    (hinv : ChanInv vals s) (hstep : ChanStep s t) : ChanInv vals t := by
  obtain ⟨hv, hd⟩ := hinv
  cases hstep with
  | send v rest hsend halive =>
      refine ⟨?_, by simp⟩
      rw [← hv, hsend]
      simp
  | dropSender hsend halive =>
      exact ⟨by simpa [hsend] using hv, fun _ => rfl⟩
  | recvNext v rest hq =>
      refine ⟨?_, hd⟩
      rw [← hv, hq]
      simp

theorem chanInv_reach {α : Type} {vals : List α} {s : ChanState α}
    (h : ChanReach (ChanState.init vals) s) : ChanInv vals s := by
  induction h with
  | refl => exact ⟨by simp [ChanState.init], by simp [ChanState.init]⟩
  | tail _ hstep ih => exact chanInv_step ih hstep

/-- C2: if the sole producer sends `vals` in order and then its sender is
dropped, then whenever the consumer's iteration ends (sender dropped and
buffer drained, spec §3 lifecycle) it has yielded exactly `vals`, in order,
under every interleaving. -/
theorem single_producer_streaming {α : Type} (vals : List α)
    (s : ChanState α) (hr : ChanReach (ChanState.init vals) s)
    (hclosed : s.senderAlive = false) (hempty : s.queue = []) :
    s.received = vals := by
  obtain ⟨hv, hd⟩ := chanInv_reach hr
  simpa [hempty, hd hclosed] using hv

/-- The producer can send every remaining value in order. -/
theorem chanReach_sendAll {α : Type} (l q r : List α) :
    ChanReach ⟨l, true, q, r⟩ ⟨[], true, q ++ l, r⟩ := by
  induction l generalizing q with
  | nil => simpa using Relation.ReflTransGen.refl
  | cons v rest ih =>
      refine Relation.ReflTransGen.head
        (ChanStep.send ⟨v :: rest, true, q, r⟩ v rest rfl rfl) ?_
      simpa [List.append_assoc] using ih (q ++ [v])

/-- Once the sender is dropped the consumer can drain the buffer. -/
theorem chanReach_drain {α : Type} (q r : List α) :
    ChanReach ⟨[], false, q, r⟩ ⟨[], false, [], r ++ q⟩ := by
  induction q generalizing r with
  | nil => simpa using Relation.ReflTransGen.refl
  | cons v rest ih =>
      refine Relation.ReflTransGen.head
        (ChanStep.recvNext ⟨[], false, v :: rest, r⟩ v rest rfl) ?_
      simpa [List.append_assoc] using ih (r ++ [v])

/-- One full run: send everything, drop the sender, drain the buffer. -/
theorem chanReach_run {α : Type} (vals : List α) :
    ChanReach (ChanState.init vals) ⟨[], false, [], vals⟩ := by
  refine Relation.ReflTransGen.trans (chanReach_sendAll vals [] []) ?_
  refine Relation.ReflTransGen.head
    (ChanStep.dropSender ⟨[], true, [] ++ vals, []⟩ rfl rfl) ?_
  simpa using chanReach_drain ([] ++ vals) []

/-- The concrete values `message_passing_example_two` sends
(src/concurrency.rs lines 100-104). -/
def messagePassingVals : List String := ["hi", "from", "the", "thread"]

/-- Witness for C2 on the source's own four strings. -/
theorem single_producer_streaming_witness :
    (⟨[], false, [], messagePassingVals⟩ : ChanState String).received =
      messagePassingVals :=
  single_producer_streaming messagePassingVals _
    (chanReach_run messagePassingVals) rfl rfl

/-! ## Blocking receive versus iterating receive on a closed channel -/

/-- Outcome of one blocking `recv` call. -/
inductive RecvOutcome (α : Type) where
  | got (v : α) (rest : List α)
  | channelClosed
  | blocked

/-- Outcome of one step of the `for received in rx` iteration. -/
inductive IterOutcome (α : Type) where
  | yieldNext (v : α) (rest : List α)
  | ended
  | blocked

/-- Modelled from the spec: a single blocking receive (spec §7
ChannelClosed, §9 sender-count note), decided by the number of live sender
handles and the buffered queue.  A buffered value is delivered; with no
sender left and nothing buffered the call fails with ChannelClosed;
otherwise it blocks until something changes. -/
def channelRecv {α : Type} (senders : Nat) (queue : List α) :
    RecvOutcome α :=
  match queue with
  | v :: rest => .got v rest
  | [] => if senders = 0 then .channelClosed else .blocked

/-- Modelled from the spec: one step of the receiving iteration (spec §3
lifecycle, §7: an iterating receive terminates its sequence normally on a
closed-and-empty channel instead of failing). -/
def channelIterNext {α : Type} (senders : Nat) (queue : List α) :
    IterOutcome α :=
  match queue with
  | v :: rest => .yieldNext v rest
  | [] => if senders = 0 then .ended else .blocked

/-- C8: on a channel with no remaining sender and an empty buffer, a single
blocking receive fails with ChannelClosed (it does not block), while the
iterating receive ends its sequence normally (it does not fail). -/
theorem recv_closed_empty (α : Type) :
    channelRecv 0 ([] : List α) = .channelClosed ∧
      channelIterNext 0 ([] : List α) = .ended :=
  ⟨rfl, rfl⟩

/-! ## Multi-producer streaming channel
(`multi_message_sending_example`, src/concurrency.rs lines 121-164)

Two producer threads: the first owns the clone `tx1` and sends its own
sequence, the second owns the original `tx` and sends another sequence;
each handle is dropped when its thread's closure returns.  The invoking
thread holds no sender (both were moved), and its `for received in rx`
iteration ends once both handles are dropped and the buffer is drained.
The channel behaviour is modelled from the spec as for `ChanState`. -/

/-- Interleaving state of `multi_message_sending_example`: producer A is
the thread holding the clone `tx1`, producer B the thread holding the
original `tx`. -/
structure MultiChanState (α : Type) where
  toSendA : List α
  aliveA : Bool
  toSendB : List α
  aliveB : Bool
  queue : List α
  received : List α

/-- Modelled from the spec: one scheduler step of either producer or of the
consumer; each producer sends in its own order through the shared FIFO
buffer, and drops its handle after its last send. -/
inductive MultiChanStep {α : Type} :
    MultiChanState α → MultiChanState α → Prop
  | sendA (s : MultiChanState α) (v : α) (rest : List α) :
      s.toSendA = v :: rest → s.aliveA = true →
      MultiChanStep s
        ⟨rest, true, s.toSendB, s.aliveB, s.queue ++ [v], s.received⟩
  | sendB (s : MultiChanState α) (v : α) (rest : List α) :
      s.toSendB = v :: rest → s.aliveB = true →
      MultiChanStep s
        ⟨s.toSendA, s.aliveA, rest, true, s.queue ++ [v], s.received⟩
  | dropA (s : MultiChanState α) :
      s.toSendA = [] → s.aliveA = true →
      MultiChanStep s
        ⟨[], false, s.toSendB, s.aliveB, s.queue, s.received⟩
  | dropB (s : MultiChanState α) :
      s.toSendB = [] → s.aliveB = true →
      MultiChanStep s
        ⟨s.toSendA, s.aliveA, [], false, s.queue, s.received⟩
  | recvNext (s : MultiChanState α) (v : α) (rest : List α) :
      s.queue = v :: rest →
      MultiChanStep s
        ⟨s.toSendA, s.aliveA, s.toSendB, s.aliveB, rest,
          s.received ++ [v]⟩

/-- Initial state of `multi_message_sending_example`. -/
def MultiChanState.init {α : Type} (valsA valsB : List α) :
    MultiChanState α :=
  ⟨valsA, true, valsB, true, [], []⟩

/-- Reachability under any interleaving of the two producers and the
consumer. -/
def MultiReach {α : Type} : MultiChanState α → MultiChanState α → Prop :=
  Relation.ReflTransGen MultiChanStep

/-- `Interleave as bs cs` holds when `cs` is a merge of `as` and `bs` that
keeps the relative order inside each of `as` and `bs`. -/
inductive Interleave {α : Type} : List α → List α → List α → Prop
  | nil : Interleave [] [] []
  | left (a : α) (as bs cs : List α) :
      Interleave as bs cs → Interleave (a :: as) bs (a :: cs)
  | right (b : α) (as bs cs : List α) :
      Interleave as bs cs → Interleave as (b :: bs) (b :: cs)

/-- An interleaving contains every element of both inputs exactly once, so
its length is the sum of the input lengths. -/
theorem Interleave.length_eq {α : Type} {as bs cs : List α}
    (h : Interleave as bs cs) : cs.length = as.length + bs.length := by
  induction h with
  | nil => rfl
  | left a as bs cs _ ih => simp [ih]; omega
  | right b as bs cs _ ih => simp [ih]; omega

/-- Appending the same value on the left input and on the merge preserves
interleavings. -/
theorem Interleave.concat_left {α : Type} {as bs cs : List α} (a : α)
    (h : Interleave as bs cs) : Interleave (as ++ [a]) bs (cs ++ [a]) := by
  induction h with
  | nil => exact .left a [] [] [] .nil
  | left x as bs cs _ ih => exact .left x _ _ _ ih
  | right x as bs cs _ ih => exact .right x _ _ _ ih

/-- Appending the same value on the right input and on the merge preserves
interleavings. -/
theorem Interleave.concat_right {α : Type} {as bs cs : List α} (b : α)
    (h : Interleave as bs cs) : Interleave as (bs ++ [b]) (cs ++ [b]) := by
  induction h with
  | nil => exact .right b [] [] [] .nil
  | left x as bs cs _ ih => exact .left x _ _ _ ih
  | right x as bs cs _ ih => exact .right x _ _ _ ih

/-- Invariant: what has been received and buffered so far is an interleaving
of the prefixes each producer has already sent, and a dropped handle has
nothing left to send. -/
def MultiChanInv {α : Type} (valsA valsB : List α)
    (s : MultiChanState α) : Prop :=
  (∃ sentA sentB, sentA ++ s.toSendA = valsA ∧ sentB ++ s.toSendB = valsB ∧
      Interleave sentA sentB (s.received ++ s.queue)) ∧
    (s.aliveA = false → s.toSendA = []) ∧
    (s.aliveB = false → s.toSendB = [])

theorem multiChanInv_step {α : Type} {valsA valsB : List α}
    {s t : MultiChanState α} (hinv : MultiChanInv valsA valsB s)
    (hstep : MultiChanStep s t) : MultiChanInv valsA valsB t := by
  obtain ⟨⟨sentA, sentB, hA, hB, hint⟩, hdA, hdB⟩ := hinv
  cases hstep with
  | sendA v rest hsend halive =>
      refine ⟨⟨sentA ++ [v], sentB, ?_, hB, ?_⟩, by simp, hdB⟩
      · rw [← hA, hsend]; simp
      · simpa [List.append_assoc] using hint.concat_left v
  | sendB v rest hsend halive =>
      refine ⟨⟨sentA, sentB ++ [v], hA, ?_, ?_⟩, hdA, by simp⟩
      · rw [← hB, hsend]; simp
      · simpa [List.append_assoc] using hint.concat_right v
  | dropA hsend halive =>
      exact ⟨⟨sentA, sentB, by simpa [hsend] using hA, hB, hint⟩,
        fun _ => rfl, hdB⟩
  | dropB hsend halive =>
      exact ⟨⟨sentA, sentB, hA, by simpa [hsend] using hB, hint⟩,
        hdA, fun _ => rfl⟩
  | recvNext v rest hq =>
      refine ⟨⟨sentA, sentB, hA, hB, ?_⟩, hdA, hdB⟩
      rw [List.append_assoc]
      simpa [hq] using hint

theorem multiChanInv_reach {α : Type} {valsA valsB : List α}
    {s : MultiChanState α}
    (h : MultiReach (MultiChanState.init valsA valsB) s) :
    MultiChanInv valsA valsB s := by
  induction h with
  | refl =>
      exact ⟨⟨[], [], rfl, rfl, by simpa using Interleave.nil⟩,
        by simp [MultiChanState.init], by simp [MultiChanState.init]⟩
  | tail _ hstep ih => exact multiChanInv_step ih hstep

/-- C3: when the consuming iteration ends (both the clone `tx1` and the
original `tx` dropped, buffer drained — the iteration terminates only
then), the received sequence is an interleaving of the two producers'
sequences: each producer's own order is preserved, every sent value occurs
exactly once, and the total count is the sum of both producers' counts. -/
theorem multi_producer_streaming {α : Type} (valsA valsB : List α)
    (s : MultiChanState α)
    (hr : MultiReach (MultiChanState.init valsA valsB) s)
    (hA : s.aliveA = false) (hB : s.aliveB = false)
    (hq : s.queue = []) :
    Interleave valsA valsB s.received ∧
      s.received.length = valsA.length + valsB.length := by
  obtain ⟨⟨sentA, sentB, hvA, hvB, hint⟩, hdA, hdB⟩ := multiChanInv_reach hr
  rw [hdA hA] at hvA
  rw [hdB hB] at hvB
  simp only [List.append_nil] at hvA hvB
  rw [hq, List.append_nil] at hint
  rw [hvA, hvB] at hint
  exact ⟨hint, hint.length_eq⟩

/-- Producer A can send every remaining value in order. -/
theorem multiReach_sendAllA {α : Type} (l : List α) (tB : List α)
    (aB : Bool) (q r : List α) :
    MultiReach ⟨l, true, tB, aB, q, r⟩ ⟨[], true, tB, aB, q ++ l, r⟩ := by
  induction l generalizing q with
  | nil => simpa using Relation.ReflTransGen.refl
  | cons v rest ih =>
      refine Relation.ReflTransGen.head
        (MultiChanStep.sendA ⟨v :: rest, true, tB, aB, q, r⟩ v rest rfl rfl)
        ?_
      simpa [List.append_assoc] using ih (q ++ [v])

/-- Producer B can send every remaining value in order. -/
theorem multiReach_sendAllB {α : Type} (l : List α) (tA : List α)
    (aA : Bool) (q r : List α) :
    MultiReach ⟨tA, aA, l, true, q, r⟩ ⟨tA, aA, [], true, q ++ l, r⟩ := by
  induction l generalizing q with
  | nil => simpa using Relation.ReflTransGen.refl
  | cons v rest ih =>
      refine Relation.ReflTransGen.head
        (MultiChanStep.sendB ⟨tA, aA, v :: rest, true, q, r⟩ v rest rfl rfl)
        ?_
      simpa [List.append_assoc] using ih (q ++ [v])

/-- With both senders dropped the consumer can drain the buffer. -/
theorem multiReach_drain {α : Type} (q r : List α) :
    MultiReach ⟨[], false, [], false, q, r⟩
      ⟨[], false, [], false, [], r ++ q⟩ := by
  induction q generalizing r with
  | nil => simpa using Relation.ReflTransGen.refl
  | cons v rest ih =>
      refine Relation.ReflTransGen.head
        (MultiChanStep.recvNext ⟨[], false, [], false, v :: rest, r⟩ v rest
          rfl) ?_
      simpa [List.append_assoc] using ih (r ++ [v])

/-- One full run: A sends all and drops, B sends all and drops, the
consumer drains. -/
theorem multiReach_run {α : Type} (valsA valsB : List α) :
    MultiReach (MultiChanState.init valsA valsB)
      ⟨[], false, [], false, [], valsA ++ valsB⟩ := by
  refine Relation.ReflTransGen.trans
    (multiReach_sendAllA valsA valsB true [] []) ?_
  refine Relation.ReflTransGen.head
    (MultiChanStep.dropA ⟨[], true, valsB, true, [] ++ valsA, []⟩ rfl rfl) ?_
  refine Relation.ReflTransGen.trans
    (multiReach_sendAllB valsB [] false ([] ++ valsA) []) ?_
  refine Relation.ReflTransGen.head
    (MultiChanStep.dropB ⟨[], false, [], true, [] ++ valsA ++ valsB, []⟩ rfl
      rfl) ?_
  simpa using multiReach_drain ([] ++ valsA ++ valsB) []

/-- The sequence the `tx1` thread sends (src/concurrency.rs lines 131-135). -/
def multiValsA : List String := ["hi", "from", "the", "thread"]

/-- The sequence the `tx` thread sends (src/concurrency.rs lines 146-150). -/
def multiValsB : List String := ["more", "messages", "for", "you"]

/-- Witness for C3 on the source's own eight strings, along the run where A
sends everything before B. -/
theorem multi_producer_streaming_witness :
    Interleave multiValsA multiValsB
        ((⟨[], false, [], false, [], multiValsA ++ multiValsB⟩ :
          MultiChanState String).received) ∧
      ((⟨[], false, [], false, [], multiValsA ++ multiValsB⟩ :
          MultiChanState String).received).length =
        multiValsA.length + multiValsB.length :=
  multi_producer_streaming multiValsA multiValsB _
    (multiReach_run multiValsA multiValsB) rfl rfl rfl

/-! ## Mutex-guarded shared counter
(`shared_mutex_thread_example`, src/concurrency.rs lines 195-214)

Each of the N spawned workers runs `let mut num = counter.lock().unwrap();
*num += 1;`: it acquires the mutex, reads the integer, writes the
incremented value and releases the lock when the guard goes out of scope.
The mutex itself is from the standard library, so its semantics is
modelled from the spec (§3 SharedCounter: the integer is touched only
while the lock is held, at most one holder at a time).  To expose the
read-modify-write the critical section is split into two transitions:
acquiring the lock reads the current value, and the write happens in a
separate transition that also releases the lock.  No thread can acquire
the lock between a worker's read and its write, which is exactly what the
invariant proof exploits. -/

/-- Phase of one worker of `shared_mutex_thread_example`: not yet in the
critical section, holding the lock with the value it read, or finished. -/
inductive WorkerPhase where
  | ready
  | holding (localNum : Nat)
  | finished
deriving DecidableEq

/-- Global state: the mutex-guarded integer, which worker (if any) holds
the lock, and every worker's phase. -/
structure CounterState (N : Nat) where
  counter : Nat
  lock : Option (Fin N)
  workers : Fin N → WorkerPhase

/-- Modelled from the spec: one scheduler step.  `lockAcquire` fires only
when the lock is free (mutual exclusion) and records the value the worker
reads; `writeRelease` stores the incremented value and frees the lock, as
the guard drop at the end of the closure does. -/
inductive CounterStep {N : Nat} : CounterState N → CounterState N → Prop
  | lockAcquire (s : CounterState N) (i : Fin N) :
      s.workers i = .ready → s.lock = none →
      CounterStep s
        ⟨s.counter, some i,
          Function.update s.workers i (.holding s.counter)⟩
  | writeRelease (s : CounterState N) (i : Fin N) (v : Nat) :
      s.workers i = .holding v → s.lock = some i →
      CounterStep s ⟨v + 1, none, Function.update s.workers i .finished⟩

/-- Initial state: counter 0, lock free, every worker about to run. -/
def CounterState.init (N : Nat) : CounterState N :=
  ⟨0, none, fun _ => .ready⟩

/-- Reachability under any interleaving of the N workers. -/
def CounterReach {N : Nat} : CounterState N → CounterState N → Prop :=
  Relation.ReflTransGen CounterStep

/-- How much a worker in this phase has already added to the counter. -/
def WorkerPhase.score : WorkerPhase → Nat
  | .finished => 1
  | _ => 0

@[simp] theorem WorkerPhase.score_ready : WorkerPhase.score .ready = 0 := rfl

@[simp] theorem WorkerPhase.score_holding (v : Nat) :
    WorkerPhase.score (.holding v) = 0 := rfl

@[simp] theorem WorkerPhase.score_finished :
    WorkerPhase.score .finished = 1 := rfl

/-- Invariant: the counter equals the number of finished workers, and a
worker holding the lock is the recorded lock owner and read the current
counter value (nobody else wrote since its read). -/
def CounterInv {N : Nat} (s : CounterState N) : Prop :=
  s.counter = ∑ i, (s.workers i).score ∧
    ∀ i v, s.workers i = .holding v → s.lock = some i ∧ v = s.counter

theorem score_update {N : Nat} (f : Fin N → WorkerPhase) (i : Fin N)
    (b : WorkerPhase) :
    (fun j => (Function.update f i b j).score) =
      Function.update (fun j => (f j).score) i b.score := by
  funext j
  rw [Function.update_apply, Function.update_apply]
  split <;> rfl

theorem sum_score_update {N : Nat} (f : Fin N → WorkerPhase) (i : Fin N)
    (b : WorkerPhase) :
    (∑ j, (Function.update f i b j).score) + (f i).score =
      (∑ j, (f j).score) + b.score := by
  rw [score_update, Finset.sum_update_of_mem (Finset.mem_univ i),
    Finset.sum_eq_sum_diff_singleton_add (Finset.mem_univ i)
      (fun j => (f j).score)]
  ring

theorem counterInv_step {N : Nat} {s t : CounterState N}
    (hinv : CounterInv s) (hstep : CounterStep s t) : CounterInv t := by
  obtain ⟨hsum, hhold⟩ := hinv
  cases hstep with
  | lockAcquire i hready hlock =>
      constructor
      · dsimp only
        have h := sum_score_update s.workers i (.holding s.counter)
        rw [hready] at h
        simp only [WorkerPhase.score_ready, WorkerPhase.score_holding,
          Nat.add_zero] at h
        rw [h]
        exact hsum
      · intro j v hj
        dsimp only at hj ⊢
        by_cases hji : j = i
        · subst hji
          rw [Function.update_same] at hj
          cases hj
          exact ⟨rfl, rfl⟩
        · rw [Function.update_noteq hji] at hj
          have hlk := (hhold j v hj).1
          rw [hlock] at hlk
          cases hlk
  | writeRelease i v hheld hlock =>
      have hv : v = s.counter := (hhold i v hheld).2
      constructor
      · dsimp only
        have h := sum_score_update s.workers i .finished
        rw [hheld] at h
        simp only [WorkerPhase.score_holding, WorkerPhase.score_finished,
          Nat.add_zero] at h
        rw [h, ← hsum, hv]
      · intro j w hj
        dsimp only at hj ⊢
        by_cases hji : j = i
        · subst hji
          rw [Function.update_same] at hj
          cases hj
        · rw [Function.update_noteq hji] at hj
          have hl := (hhold j w hj).1
          rw [hlock] at hl
          exact absurd (Option.some.inj hl).symm hji

theorem counterInv_reach {N : Nat} {s : CounterState N}
    (h : CounterReach (CounterState.init N) s) : CounterInv s := by
  induction h with
  | refl =>
      refine ⟨by simp [CounterState.init], ?_⟩
      intro i v hi
      simp [CounterState.init] at hi
  | tail _ hstep ih => exact counterInv_step ih hstep

/-- In every reachable state where all N workers have finished, the counter
is exactly N: the lock serialized every read-modify-write. -/
theorem shared_counter_final {N : Nat} (s : CounterState N)
    (hr : CounterReach (CounterState.init N) s)
    (hdone : ∀ i, s.workers i = .finished) : s.counter = N := by
  obtain ⟨hsum, _⟩ := counterInv_reach hr
  rw [hsum, Finset.sum_congr rfl (fun i _ => by rw [hdone i])]
  simp

/-- C1: with N = 10 workers each incrementing the mutex-guarded counter by
1 from an initial value of 0, every interleaving in which all workers have
finished (after joining them all) leaves the counter at exactly 10 — no
lost or duplicated increments. -/
theorem shared_mutex_counter_ten (s : CounterState 10)
    (hr : CounterReach (CounterState.init 10) s)
    (hdone : ∀ i, s.workers i = .finished) : s.counter = 10 :=
  shared_counter_final s hr hdone

/-- Worker phases after the first k workers ran to completion, one after
the other. -/
def seqWorkers (N k : Nat) : Fin N → WorkerPhase :=
  fun i => if i.val < k then .finished else .ready

/-- The sequential schedule: worker 0 acquires, increments and releases,
then worker 1, and so on, k workers deep. -/
theorem counterReach_seq (N : Nat) :
    ∀ k, k ≤ N →
      CounterReach (CounterState.init N) ⟨k, none, seqWorkers N k⟩ := by
  intro k
  induction k with
  | zero =>
      intro _
      have hw : seqWorkers N 0 = fun _ => WorkerPhase.ready :=
        funext fun i => by simp [seqWorkers]
      rw [hw]
      exact Relation.ReflTransGen.refl
  | succ k ih =>
      intro hk
      have h1 := ih (Nat.le_of_succ_le hk)
      have hkN : k < N := hk
      have stepA :
          CounterStep ⟨k, none, seqWorkers N k⟩
            ⟨k, some ⟨k, hkN⟩,
              Function.update (seqWorkers N k) ⟨k, hkN⟩ (.holding k)⟩ :=
        CounterStep.lockAcquire _ ⟨k, hkN⟩ (by simp [seqWorkers]) rfl
      have stepB :
          CounterStep
            ⟨k, some ⟨k, hkN⟩,
              Function.update (seqWorkers N k) ⟨k, hkN⟩ (.holding k)⟩
            ⟨k + 1, none,
              Function.update
                (Function.update (seqWorkers N k) ⟨k, hkN⟩ (.holding k))
                ⟨k, hkN⟩ .finished⟩ :=
        CounterStep.writeRelease _ ⟨k, hkN⟩ k (Function.update_same _ _ _) rfl
      have hw2 :
          Function.update
              (Function.update (seqWorkers N k) ⟨k, hkN⟩ (.holding k))
              ⟨k, hkN⟩ .finished = seqWorkers N (k + 1) := by
        funext j
        by_cases hj : j = (⟨k, hkN⟩ : Fin N)
        · subst hj
          rw [Function.update_same]
          simp [seqWorkers]
        · rw [Function.update_noteq hj, Function.update_noteq hj]
          have hvk : j.val ≠ k := fun h => hj (Fin.ext h)
          by_cases hlt : j.val < k
          · have : j.val < k + 1 := by omega
            simp [seqWorkers, hlt, this]
          · have : ¬ j.val < k + 1 := by omega
            simp [seqWorkers, hlt, this]
      rw [hw2] at stepB
      exact h1.trans
        (Relation.ReflTransGen.head stepA
          (Relation.ReflTransGen.single stepB))

/-- The sequential schedule finishes every worker. -/
theorem counterReach_all_finished (N : Nat) :
    CounterReach (CounterState.init N)
      ⟨N, none, fun _ => WorkerPhase.finished⟩ := by
  have h := counterReach_seq N N le_rfl
  have hw : seqWorkers N N = fun _ => WorkerPhase.finished :=
    funext fun i => by simp [seqWorkers, i.isLt]
  rw [hw] at h
  exact h

/-- Witness for C1: the fully sequential schedule of 10 workers ends with
the counter at 10. -/
theorem shared_mutex_counter_ten_witness :
    (⟨10, none, fun _ => WorkerPhase.finished⟩ : CounterState 10).counter =
      10 :=
  shared_mutex_counter_ten ⟨10, none, fun _ => WorkerPhase.finished⟩
    (counterReach_all_finished 10) (fun _ => rfl)

/-! ## Join-first ordering (`thread_example_two`, src/concurrency.rs
lines 27-46)

The spawned worker prints its lines for i in 1..10 (nine lines); the
invoking thread calls `join` immediately after the spawn and only then
prints its own lines for i in 1..5 (four lines).  Thread scheduling and
the blocking `join` are modelled from the spec (§4.2 Join-first, §5
suspension points): `join` can only return once the worker has finished,
and the invoking thread's subsequent work can only run after `join`
returned.  The print side effects are recorded as an event trace. -/

/-- One observable line of `thread_example_two`: the i-th line of the
spawned worker or the i-th line of the invoking thread. -/
inductive JoinEvent where
  | workerLine (i : Nat)
  | mainLine (i : Nat)
deriving DecidableEq

/-- Interleaving state: how many lines the worker has printed (0..9),
whether `join` has returned, how many lines the invoking thread has
printed after the join (0..4), and the trace so far. -/
structure JoinFirstState where
  workerDone : Nat
  joined : Bool
  mainDone : Nat
  trace : List JoinEvent

/-- Modelled from the spec: one scheduler step.  The worker may print
while it has lines left; `join` returns only when the worker has finished
(spec §5: join blocks until the target worker finishes); the invoking
thread prints only after `join` returned (program order of lines 38-45). -/
inductive JoinStep : JoinFirstState → JoinFirstState → Prop
  | workerPrint (s : JoinFirstState) :
      s.workerDone < 9 →
      JoinStep s
        ⟨s.workerDone + 1, s.joined, s.mainDone,
          s.trace ++ [.workerLine (s.workerDone + 1)]⟩
  | joinReturn (s : JoinFirstState) :
      s.workerDone = 9 → s.joined = false →
      JoinStep s ⟨9, true, s.mainDone, s.trace⟩
  | mainPrint (s : JoinFirstState) :
      s.joined = true → s.mainDone < 4 →
      JoinStep s
        ⟨s.workerDone, true, s.mainDone + 1,
          s.trace ++ [.mainLine (s.mainDone + 1)]⟩

/-- Initial state of `thread_example_two`, right after the spawn. -/
def joinFirstInit : JoinFirstState := ⟨0, false, 0, []⟩

/-- Reachability under any interleaving of worker and invoking thread. -/
def JoinReach : JoinFirstState → JoinFirstState → Prop :=
  Relation.ReflTransGen JoinStep

/-- The worker's first n lines, in order. -/
def workerLines (n : Nat) : List JoinEvent :=
  (List.range n).map (fun k => .workerLine (k + 1))

/-- The invoking thread's first n post-join lines, in order. -/
def mainLines (n : Nat) : List JoinEvent :=
  (List.range n).map (fun k => .mainLine (k + 1))

theorem workerLines_succ (n : Nat) :
    workerLines (n + 1) = workerLines n ++ [.workerLine (n + 1)] := by
  simp [workerLines, List.range_succ]

theorem mainLines_succ (n : Nat) :
    mainLines (n + 1) = mainLines n ++ [.mainLine (n + 1)] := by
  simp [mainLines, List.range_succ]

/-- Invariant: the trace is always the worker's lines so far followed by
the invoking thread's lines so far; the invoking thread has printed
nothing before the join, and the join can only have returned once the
worker was finished. -/
def JoinInv (s : JoinFirstState) : Prop :=
  s.trace = workerLines s.workerDone ++ mainLines s.mainDone ∧
    s.workerDone ≤ 9 ∧ s.mainDone ≤ 4 ∧
    (s.joined = false → s.mainDone = 0) ∧
    (s.joined = true → s.workerDone = 9)

theorem joinInv_step {s t : JoinFirstState} (hinv : JoinInv s)
    (hstep : JoinStep s t) : JoinInv t := by
  obtain ⟨htr, hw9, hm4, hnj, hj9⟩ := hinv
  cases hstep with
  | workerPrint hlt =>
      have hnotj : s.joined = false := by
        cases hj : s.joined
        · rfl
        · exact absurd (hj9 hj) (by omega)
      have hm0 : s.mainDone = 0 := hnj hnotj
      refine ⟨?_, ?_, ?_, ?_, ?_⟩ <;> dsimp only
      · rw [htr, hm0, workerLines_succ]
        simp [mainLines]
      · omega
      · exact hm4
      · intro _
        exact hm0
      · intro hj
        rw [hnotj] at hj
        cases hj
  | joinReturn hw hnj' =>
      refine ⟨?_, ?_, ?_, ?_, ?_⟩ <;> dsimp only
      · rw [htr, hw]
      · exact le_rfl
      · exact hm4
      · intro h
        cases h
      · intro _
        rfl
  | mainPrint hj hlt =>
      refine ⟨?_, ?_, ?_, ?_, ?_⟩ <;> dsimp only
      · rw [htr, mainLines_succ, List.append_assoc]
      · exact hw9
      · omega
      · intro h
        cases h
      · intro _
        exact hj9 hj

theorem joinInv_reach {s : JoinFirstState}
    (h : JoinReach joinFirstInit s) : JoinInv s := by
  induction h with
  | refl =>
      exact ⟨by simp [joinFirstInit, workerLines, mainLines],
        by simp [joinFirstInit], by simp [joinFirstInit],
        fun _ => rfl, fun h => by simp [joinFirstInit] at h⟩
  | tail _ hstep ih => exact joinInv_step ih hstep

/-- C7: in `thread_example_two` the invoking thread joins the worker
before any of its own printing, so in every complete interleaving (worker
finished, join returned, invoking thread done) the trace is exactly the
worker's nine lines followed by the invoking thread's four lines: every
worker effect strictly precedes every post-join effect of the invoking
thread. -/
theorem join_first_ordering (s : JoinFirstState)
    (hr : JoinReach joinFirstInit s) (hw : s.workerDone = 9)
    (_hj : s.joined = true) (hm : s.mainDone = 4) :
    s.trace = workerLines 9 ++ mainLines 4 := by
  obtain ⟨htr, _, _, _, _⟩ := joinInv_reach hr
  rw [htr, hw, hm]

/-- The worker can print its first k lines. -/
theorem joinReach_worker (k : Nat) (hk : k ≤ 9) :
    JoinReach joinFirstInit ⟨k, false, 0, workerLines k⟩ := by
  induction k with
  | zero =>
      have hw : workerLines 0 = [] := by simp [workerLines]
      rw [hw]
      exact Relation.ReflTransGen.refl
  | succ k ih =>
      refine (ih (by omega)).tail ?_
      have h : JoinStep ⟨k, false, 0, workerLines k⟩
          ⟨k + 1, false, 0, workerLines k ++ [.workerLine (k + 1)]⟩ :=
        JoinStep.workerPrint ⟨k, false, 0, workerLines k⟩
          (show k < 9 by omega)
      rwa [← workerLines_succ] at h

/-- After the join returns, the invoking thread can print its m lines. -/
theorem joinReach_main (m : Nat) (hm : m ≤ 4) :
    JoinReach ⟨9, true, 0, workerLines 9⟩
      ⟨9, true, m, workerLines 9 ++ mainLines m⟩ := by
  induction m with
  | zero =>
      have hml : mainLines 0 = [] := by simp [mainLines]
      rw [hml, List.append_nil]
      exact Relation.ReflTransGen.refl
  | succ m ih =>
      refine (ih (by omega)).tail ?_
      have h : JoinStep ⟨9, true, m, workerLines 9 ++ mainLines m⟩
          ⟨9, true, m + 1,
            workerLines 9 ++ mainLines m ++ [.mainLine (m + 1)]⟩ :=
        JoinStep.mainPrint ⟨9, true, m, workerLines 9 ++ mainLines m⟩ rfl
          (show m < 4 by omega)
      rw [List.append_assoc] at h
      rwa [← mainLines_succ] at h

/-- One complete run of `thread_example_two`. -/
theorem joinReach_run :
    JoinReach joinFirstInit ⟨9, true, 4, workerLines 9 ++ mainLines 4⟩ := by
  refine Relation.ReflTransGen.trans (joinReach_worker 9 le_rfl) ?_
  refine Relation.ReflTransGen.head
    (JoinStep.joinReturn ⟨9, false, 0, workerLines 9⟩ rfl rfl) ?_
  exact joinReach_main 4 le_rfl

/-- Witness for C7: the complete run reaches the terminal state and its
trace is the worker's lines followed by the invoking thread's lines. -/
theorem join_first_ordering_witness :
    (⟨9, true, 4, workerLines 9 ++ mainLines 4⟩ : JoinFirstState).trace =
      workerLines 9 ++ mainLines 4 :=
  join_first_ordering ⟨9, true, 4, workerLines 9 ++ mainLines 4⟩
    joinReach_run rfl rfl rfl

end RustBook
